import Mathlib

/-!
Verification of the unicode-normalization crate's specification.

The repository's `src/lib.rs` is the public façade: it re-exports the
transformers and classifiers and attaches them to character-producing inputs.
The algorithmic modules (`decompose`, `recompose`, `quick_check`,
`stream_safe`, `normalize`, `lookups`, `tables`) are not part of the sources
available under `src/`, so they are modelled here from the specification
(sections 3-4 and 6 of the design document), over a small concrete character
database that is faithful to the data model the specification describes.

Codepoints are modelled as natural numbers (Unicode scalar values); character
sequences as `List Nat`.
-/

namespace UnicodeNormalization

/-- Modelled from the spec: the `CharacterDatabase` combining-class lookup
(`canonical_combining_class(c) -> class`, default 0) of the missing
`lookups`/`tables` modules.  The database holds a small set of concrete
entries with their real Unicode combining classes: U+0300 GRAVE, U+0301 ACUTE
and U+030A RING ABOVE (class 230), U+0316 GRAVE BELOW (class 220), and
U+0334 TILDE OVERLAY (class 1).  Every other codepoint defaults to class 0
("starter"). -/
def canonical_combining_class (c : Nat) : Nat :=
  if c = 0x300 ∨ c = 0x301 ∨ c = 0x30A then 230
  else if c = 0x316 then 220
  else if c = 0x334 then 1
  else 0

/-- Whether a codepoint lies in the algorithmically-defined range of
precomposed Hangul syllables (U+AC00 ..= U+D7A3, 11172 syllables). -/
def isHangulSyllable (c : Nat) : Prop := 0xAC00 ≤ c ∧ c < 0xD7A4

instance (c : Nat) : Decidable (isHangulSyllable c) := by
  unfold isHangulSyllable; infer_instance

/-- Modelled from the spec: arithmetic decomposition of a precomposed Hangul
syllable into its leading/vowel(/trailing) jamo (missing `normalize` module).
With SBase = 0xAC00, LBase = 0x1100, VBase = 0x1161, TBase = 0x11A7,
VCount = 21, TCount = 28, NCount = VCount * TCount = 588: a syllable with
index si decomposes to L = LBase + si / NCount, V = VBase + (si % NCount) /
TCount, and, when si % TCount is nonzero, T = TBase + si % TCount. -/
def hangulDecompose (c : Nat) : List Nat :=
  let si := c - 0xAC00
  let l := 0x1100 + si / 588
  let v := 0x1161 + (si % 588) / 28
  let t := si % 28
  if t = 0 then [l, v] else [l, v, 0x11A7 + t]

/-- Modelled from the spec: the fully expanded canonical decomposition of one
codepoint (`decompose_canonical`, character-level surface of the missing
`normalize` module).  Hangul syllables decompose arithmetically; the table
holds U+00C5 LATIN CAPITAL A WITH RING ABOVE -> [U+0041, U+030A] and U+0340
COMBINING GRAVE TONE MARK -> [U+0300] (a singleton canonical decomposition of
a composition-excluded character); all other codepoints are atomic. -/
def decompose_canonical (c : Nat) : List Nat :=
  if isHangulSyllable c then hangulDecompose c
  else if c = 0xC5 then [0x41, 0x30A]
  else if c = 0x340 then [0x300]
  else [c]

/-- Modelled from the spec: the fully expanded compatibility decomposition of
one codepoint (`decompose_compatible`).  It extends the canonical table with
the compatibility mapping U+FB01 LATIN SMALL LIGATURE FI -> [U+0066, U+0069];
codepoints without a compatibility mapping fall back to their canonical
decomposition. -/
def decompose_compatible (c : Nat) : List Nat :=
  if isHangulSyllable c then hangulDecompose c
  else if c = 0xC5 then [0x41, 0x30A]
  else if c = 0x340 then [0x300]
  else if c = 0xFB01 then [0x66, 0x69]
  else [c]

/-- Modelled from the spec: the extended canonical decomposition used by the
`_ext` variants, which preserves certain CJK compatibility ideographs via a
standardized variation sequence instead of discarding information.  The model
maps U+FA10 to its base ideograph U+585A followed by variation selector
U+E0101; otherwise it agrees with the plain canonical decomposition. -/
def decompose_canonical_ext (c : Nat) : List Nat :=
  if c = 0xFA10 then [0x585A, 0xE0101] else decompose_canonical c

/-- Modelled from the spec: the extended compatibility decomposition (same
extension as `decompose_canonical_ext` over the compatibility tables). -/
def decompose_compatible_ext (c : Nat) : List Nat :=
  if c = 0xFA10 then [0x585A, 0xE0101] else decompose_compatible c

/-- Modelled from the spec: `compose(starter, mark) -> optional composite` of
the missing `normalize` module: none when no (non-excluded) canonical
composition exists.  The pair table holds (U+0041, U+030A) -> U+00C5; Hangul
L+V and LV+T pairs compose arithmetically over the jamo ranges
(L: U+1100..U+1112, V: U+1161..U+1175, T: U+11A8..U+11C2). -/
def compose (a b : Nat) : Option Nat :=
  if a = 0x41 ∧ b = 0x30A then some 0xC5
  else if 0x1100 ≤ a ∧ a < 0x1113 ∧ 0x1161 ≤ b ∧ b < 0x1176 then
    some (0xAC00 + ((a - 0x1100) * 21 + (b - 0x1161)) * 28)
  else if 0xAC00 ≤ a ∧ a < 0xD7A4 ∧ (a - 0xAC00) % 28 = 0 ∧
          0x11A7 < b ∧ b < 0x11C3 then
    some (a + (b - 0x11A7))
  else none

/-- Recursive expansion of a whole sequence: each character is replaced by its
full decomposition (the per-character expansion loop of the Decomposer). -/
def expandAll (g : Nat → List Nat) : List Nat → List Nat
  | [] => []
  | c :: rest => g c ++ expandAll g rest

/-- The reordering relation of canonical ordering: compare two characters by
their canonical combining class. -/
def cleq (a b : Nat) : Prop := canonical_combining_class a ≤ canonical_combining_class b

instance : DecidableRel cleq := fun a b => by unfold cleq; infer_instance

instance : IsTotal Nat cleq :=
  ⟨fun a b => Nat.le_total (canonical_combining_class a) (canonical_combining_class b)⟩

instance : IsTrans Nat cleq := ⟨fun _ _ _ h1 h2 => Nat.le_trans h1 h2⟩

/-- Modelled from the spec: the Decomposer's canonical-ordering pass (missing
`decompose` module).  A pending buffer collects the current run of
nonzero-combining-class characters; a class-0 character (or end of input)
flushes the buffered run, stably sorted by combining class (stable insertion
sort, per the specification). -/
def ccOrderAux (buf : List Nat) : List Nat → List Nat
  | [] => List.insertionSort cleq buf
  | c :: rest =>
      if canonical_combining_class c = 0 then
        List.insertionSort cleq buf ++ c :: ccOrderAux [] rest
      else ccOrderAux (buf ++ [c]) rest

/-- Canonical ordering of a whole sequence (empty initial buffer). -/
def ccOrder (l : List Nat) : List Nat := ccOrderAux [] l

/-- Modelled from the spec: the NFD transform (`decompose::new_canonical`):
recursive canonical decomposition of every character followed by canonical
ordering of combining-mark runs. -/
def nfd (s : List Nat) : List Nat := ccOrder (expandAll decompose_canonical s)

/-- Modelled from the spec: the NFKD transform (`decompose::new_compatible`). -/
def nfkd (s : List Nat) : List Nat := ccOrder (expandAll decompose_compatible s)

/-- Modelled from the spec: extended NFD (`decompose::new_canonical_ext`). -/
def nfdExt (s : List Nat) : List Nat := ccOrder (expandAll decompose_canonical_ext s)

/-- Modelled from the spec: extended NFKD (`decompose::new_compatible_ext`). -/
def nfkdExt (s : List Nat) : List Nat := ccOrder (expandAll decompose_compatible_ext s)

/-- Modelled from the spec: one step of the Composer (missing `recompose`
module).  The state is the optional pending candidate starter together with
the combining class of the last mark successfully merged into it.  A
character merges into the pending starter when `compose` yields a composite
and the blocking rule allows it (its class is 0 - the arithmetic Hangul jamo
case - or strictly greater than the last merged class); otherwise the pending
starter is emitted, a class-0 character becomes the new pending starter, and
a blocked combining mark is emitted immediately in decomposed form. -/
def composeAux : Option (Nat × Nat) → List Nat → List Nat
  | none, [] => []
  | some (st, _), [] => [st]
  | none, ch :: rest =>
      if canonical_combining_class ch = 0 then composeAux (some (ch, 0)) rest
      else ch :: composeAux none rest
  | some (st, last), ch :: rest =>
      match compose st ch with
      | some r =>
          if canonical_combining_class ch = 0 ∨ last < canonical_combining_class ch then
            composeAux (some (r, canonical_combining_class ch)) rest
          else st :: ch :: composeAux none rest
      | none =>
          if canonical_combining_class ch = 0 then st :: composeAux (some (ch, 0)) rest
          else st :: ch :: composeAux none rest

/-- The Composer's re-merging pass over an already decomposed sequence. -/
def composeSeq (l : List Nat) : List Nat := composeAux none l

/-- Modelled from the spec: the NFC transform (`recompose::new_canonical`):
canonical decomposition followed by canonical composition. -/
def nfc (s : List Nat) : List Nat := composeSeq (nfd s)

/-- Modelled from the spec: the NFKC transform (`recompose::new_compatible`):
compatibility decomposition followed by canonical composition. -/
def nfkc (s : List Nat) : List Nat := composeSeq (nfkd s)

/-- Modelled from the spec: extended NFC (`recompose::new_canonical_ext`). -/
def nfcExt (s : List Nat) : List Nat := composeSeq (nfdExt s)

/-- Modelled from the spec: extended NFKC (`recompose::new_compatible_ext`). -/
def nfkcExt (s : List Nat) : List Nat := composeSeq (nfkdExt s)

/-- The tri-state verdict of the quick-check classifier. -/
inductive IsNormalized where
  | Yes
  | No
  | Maybe
deriving DecidableEq, Repr

/-- The four standard normalization forms. -/
inductive Form where
  | NFD
  | NFKD
  | NFC
  | NFKC
deriving DecidableEq, Repr

/-- The full transform selected by a normalization form. -/
def normalizeForm : Form → List Nat → List Nat
  | .NFD => nfd
  | .NFKD => nfkd
  | .NFC => nfc
  | .NFKC => nfkc

/-- Whether a codepoint can occur as the second component of a canonical
composition pair (the composition table's marks, and the Hangul V and T jamo
ranges). -/
def secondable (b : Nat) : Prop :=
  b = 0x30A ∨ (0x1161 ≤ b ∧ b < 0x1176) ∨ (0x11A7 < b ∧ b < 0x11C3)

instance (b : Nat) : Decidable (secondable b) := by
  unfold secondable; infer_instance

/-- Modelled from the spec: the per-codepoint, per-form quick-check flag of
the character database (missing `tables` module), derived from the
decomposition and composition data of this model: a codepoint that changes
under the form's decomposition is No for the decomposed forms; for the
composed forms, the composition-excluded U+0340 (and, for NFKC, the
compatibility-decomposable U+FB01) are No, while codepoints that might
compose with a preceding character (composition-pair marks, Hangul V and T
jamo) and codepoints whose decomposition might recompose (U+00C5, Hangul
syllables) are Maybe. -/
def quick_check_flag (F : Form) (c : Nat) : IsNormalized :=
  match F with
  | .NFD => if decompose_canonical c = [c] then .Yes else .No
  | .NFKD => if decompose_compatible c = [c] then .Yes else .No
  | .NFC =>
      if c = 0x340 then .No
      else if secondable c ∨ c = 0xC5 ∨ isHangulSyllable c then .Maybe
      else .Yes
  | .NFKC =>
      if c = 0x340 ∨ c = 0xFB01 then .No
      else if secondable c ∨ c = 0xC5 ∨ isHangulSyllable c then .Maybe
      else .Yes

/-- Combining two verdicts: any No makes the verdict No; otherwise any Maybe
downgrades it to Maybe. -/
def qcStep : IsNormalized → IsNormalized → IsNormalized
  | .No, _ => .No
  | _, .No => .No
  | .Maybe, _ => .Maybe
  | _, .Maybe => .Maybe
  | .Yes, .Yes => .Yes

/-- Whether a sequence contains two adjacent combining marks out of canonical
order (a character whose combining class is nonzero and strictly less than
the preceding character's class), scanning with the class of the character
preceding the list. -/
def hasDisorder (last : Nat) : List Nat → Bool
  | [] => false
  | c :: rest =>
      (decide (canonical_combining_class c ≠ 0 ∧ canonical_combining_class c < last))
        || hasDisorder (canonical_combining_class c) rest

/-- Modelled from the spec: the single-pass quick-check scan (missing
`quick_check` module).  State: the previous character's combining class and
the running verdict.  Each step first forces the verdict down to Maybe if the
current character is an out-of-order combining mark, then combines the
verdict with the character's per-form flag. -/
def qcAux (F : Form) (last : Nat) (acc : IsNormalized) : List Nat → IsNormalized
  | [] => acc
  | c :: rest =>
      qcAux F (canonical_combining_class c)
        (qcStep
          (if canonical_combining_class c ≠ 0 ∧ canonical_combining_class c < last then
            qcStep acc .Maybe
          else acc)
          (quick_check_flag F c)) rest

/-- The quick-check classifier for a whole sequence. -/
def quickCheck (F : Form) (s : List Nat) : IsNormalized := qcAux F 0 .Yes s

/-- The stream-safe classes of the character database. -/
inductive SSClass where
  | Starter
  | NonStarter
  | Extend
deriving DecidableEq, Repr

/-- Modelled from the spec: the `stream_safe_class` lookup of the character
database: combining marks (nonzero combining class) are NonStarter; U+200D
ZERO WIDTH JOINER is Extend (exempt from the count); everything else,
including U+034F COMBINING GRAPHEME JOINER, is Starter. -/
def stream_safe_class (c : Nat) : SSClass :=
  if canonical_combining_class c ≠ 0 then .NonStarter
  else if c = 0x200D then .Extend
  else .Starter

/-- The Combining Grapheme Joiner U+034F inserted by the stream-safe process. -/
def CGJ : Nat := 0x34F

/-- Modelled from the spec: the stream-safe transformer (missing
`stream_safe` module, UAX15-D4).  It counts consecutive NonStarter characters
since the last starter (Extend characters are exempt); when the next
character would push the count past the bound of 30, it inserts CGJ before
that character and resets the count to 1. -/
def streamSafeAux (count : Nat) : List Nat → List Nat
  | [] => []
  | c :: rest =>
      match stream_safe_class c with
      | .Starter => c :: streamSafeAux 0 rest
      | .Extend => c :: streamSafeAux count rest
      | .NonStarter =>
          if 30 < count + 1 then CGJ :: c :: streamSafeAux 1 rest
          else c :: streamSafeAux (count + 1) rest

/-- The stream-safe transform of a whole sequence. -/
def streamSafe (s : List Nat) : List Nat := streamSafeAux 0 s

/-- The combining class of the character preceding the rest of a scan: the
class of the last character of the list, or the incoming class for an empty
list. -/
def lastCC (last : Nat) : List Nat → Nat
  | [] => last
  | c :: rest => lastCC (canonical_combining_class c) rest

/-! ### Canonical ordering: basic lemmas -/

theorem mem_insertionSort {x : Nat} {l : List Nat} :
    x ∈ List.insertionSort cleq l ↔ x ∈ l :=
  (List.perm_insertionSort cleq l).mem_iff

theorem length_insertionSort (l : List Nat) :
    (List.insertionSort cleq l).length = l.length :=
  List.length_insertionSort cleq l

theorem ccOrderAux_mem (input : List Nat) :
    ∀ (buf : List Nat) (x : Nat),
      x ∈ ccOrderAux buf input ↔ x ∈ buf ∨ x ∈ input := by
  induction input with
  | nil =>
      intro buf x
      simp [ccOrderAux, mem_insertionSort]
  | cons c rest ih =>
      intro buf x
      by_cases h : canonical_combining_class c = 0
      · simp only [ccOrderAux, if_pos h, List.mem_append, mem_insertionSort,
          List.mem_cons, ih]
        tauto
      · simp only [ccOrderAux, if_neg h, ih, List.mem_append, List.mem_cons,
          List.mem_singleton]
        tauto

theorem ccOrder_mem {x : Nat} {l : List Nat} : x ∈ ccOrder l ↔ x ∈ l := by
  unfold ccOrder
  rw [ccOrderAux_mem]
  simp

theorem ccOrderAux_length (input : List Nat) :
    ∀ buf : List Nat, (ccOrderAux buf input).length = buf.length + input.length := by
  induction input with
  | nil =>
      intro buf
      simp [ccOrderAux, length_insertionSort]
  | cons c rest ih =>
      intro buf
      by_cases h : canonical_combining_class c = 0
      · simp only [ccOrderAux, if_pos h, List.length_append, length_insertionSort,
          List.length_cons, ih, List.length_nil]
        omega
      · simp only [ccOrderAux, if_neg h, ih, List.length_append,
          List.length_cons, List.length_singleton, List.length_nil]
        omega

theorem ccOrder_length (l : List Nat) : (ccOrder l).length = l.length := by
  unfold ccOrder
  rw [ccOrderAux_length]
  simp

theorem hasDisorder_append (xs : List Nat) :
    ∀ (last : Nat) (ys : List Nat),
      hasDisorder last (xs ++ ys)
        = (hasDisorder last xs || hasDisorder (lastCC last xs) ys) := by
  induction xs with
  | nil => intro last ys; simp [hasDisorder, lastCC]
  | cons c rest ih =>
      intro last ys
      simp only [List.cons_append, hasDisorder, lastCC, List.append_eq, ih,
        Bool.or_assoc]

/-- A run of combining marks free of disorder relative to an incoming class is
sorted, and entirely bounded below by the incoming class. -/
theorem sorted_of_noDisorder :
    ∀ (buf : List Nat) (last : Nat),
      (∀ x ∈ buf, canonical_combining_class x ≠ 0) →
      hasDisorder last buf = false →
      List.Sorted cleq buf ∧ ∀ x ∈ buf, last ≤ canonical_combining_class x := by
  intro buf
  induction buf with
  | nil => intro last _ _; simp
  | cons c rest ih =>
      intro last hnz hd
      simp only [hasDisorder, Bool.or_eq_false_iff, decide_eq_false_iff_not,
        not_and, ne_eq, not_not, Nat.not_lt] at hd
      have hc : canonical_combining_class c ≠ 0 := hnz c (List.mem_cons_self c rest)
      have hle : last ≤ canonical_combining_class c := by
        rcases Nat.lt_or_ge (canonical_combining_class c) last with h | h
        · exact absurd (hd.1 (fun h0 => hc h0)) (Nat.not_le.mpr h)
        · exact h
      have ihr := ih (canonical_combining_class c)
        (fun x hx => hnz x (List.mem_cons_of_mem c hx)) hd.2
      refine ⟨List.sorted_cons.mpr ⟨fun b hb => ?_, ihr.1⟩, ?_⟩
      · exact ihr.2 b hb
      · intro x hx
        rcases List.mem_cons.mp hx with rfl | hx
        · exact hle
        · exact Nat.le_trans hle (ihr.2 x hx)

/-- A sorted list bounded below by the incoming class scans free of disorder. -/
theorem noDisorder_of_sorted :
    ∀ (l : List Nat) (last : Nat),
      List.Sorted cleq l →
      (∀ x ∈ l, last ≤ canonical_combining_class x) →
      hasDisorder last l = false := by
  intro l
  induction l with
  | nil => intro last _ _; simp [hasDisorder]
  | cons c rest ih =>
      intro last hs hb
      have hs' := List.sorted_cons.mp hs
      simp only [hasDisorder, Bool.or_eq_false_iff, decide_eq_false_iff_not,
        not_and, ne_eq, not_not, Nat.not_lt]
      constructor
      · intro _
        exact hb c (List.mem_cons_self c rest)
      · exact ih (canonical_combining_class c) hs'.2 (fun x hx => hs'.1 x hx)

theorem ccOrderAux_noDisorder (input : List Nat) :
    ∀ buf : List Nat, hasDisorder 0 (ccOrderAux buf input) = false := by
  induction input with
  | nil =>
      intro buf
      exact noDisorder_of_sorted _ 0 (List.sorted_insertionSort cleq buf)
        (fun x _ => Nat.zero_le _)
  | cons c rest ih =>
      intro buf
      by_cases h : canonical_combining_class c = 0
      · simp only [ccOrderAux, if_pos h]
        rw [hasDisorder_append]
        have h1 : hasDisorder 0 (List.insertionSort cleq buf) = false :=
          noDisorder_of_sorted _ 0 (List.sorted_insertionSort cleq buf)
            (fun x _ => Nat.zero_le _)
        rw [h1]
        simp only [Bool.false_or, hasDisorder, h]
        simp [ih []]
      · simp only [ccOrderAux, if_neg h]
        exact ih (buf ++ [c])

theorem ccOrder_noDisorder (l : List Nat) : hasDisorder 0 (ccOrder l) = false :=
  ccOrderAux_noDisorder l []

theorem ccOrderAux_eq_self (input : List Nat) :
    ∀ buf : List Nat,
      (∀ x ∈ buf, canonical_combining_class x ≠ 0) →
      hasDisorder 0 (buf ++ input) = false →
      ccOrderAux buf input = buf ++ input := by
  induction input with
  | nil =>
      intro buf hnz hd
      rw [List.append_nil] at hd
      simp only [ccOrderAux, List.append_nil]
      exact (sorted_of_noDisorder buf 0 hnz hd).1.insertionSort_eq
  | cons c rest ih =>
      intro buf hnz hd
      rw [hasDisorder_append] at hd
      simp only [Bool.or_eq_false_iff] at hd
      have hsort : List.insertionSort cleq buf = buf :=
        (sorted_of_noDisorder buf 0 hnz hd.1).1.insertionSort_eq
      by_cases h : canonical_combining_class c = 0
      · simp only [ccOrderAux, if_pos h, hsort]
        have hd2 := hd.2
        simp only [hasDisorder, h, Bool.or_eq_false_iff,
          decide_eq_false_iff_not] at hd2
        have : ccOrderAux [] rest = rest := by
          apply ih [] (by simp)
          simpa using hd2.2
        rw [this]
      · simp only [ccOrderAux, if_neg h]
        have : ccOrderAux (buf ++ [c]) rest = (buf ++ [c]) ++ rest := by
          apply ih
          · intro x hx
            rcases List.mem_append.mp hx with hx | hx
            · exact hnz x hx
            · rcases List.mem_singleton.mp hx with rfl; exact h
          · rw [List.append_assoc, List.singleton_append, hasDisorder_append]
            simp only [Bool.or_eq_false_iff]
            exact ⟨hd.1, hd.2⟩
        rw [this, List.append_assoc, List.singleton_append]

theorem ccOrder_eq_self {l : List Nat} (h : hasDisorder 0 l = false) :
    ccOrder l = l :=
  ccOrderAux_eq_self l [] (by simp) (by simpa using h)

theorem ccOrder_idem (l : List Nat) : ccOrder (ccOrder l) = ccOrder l :=
  ccOrder_eq_self (ccOrder_noDisorder l)

/-! ### Expansion: basic lemmas -/

theorem expandAll_mem (g : Nat → List Nat) (s : List Nat) (x : Nat) :
    x ∈ expandAll g s ↔ ∃ c ∈ s, x ∈ g c := by
  induction s with
  | nil => simp [expandAll]
  | cons c rest ih =>
      simp only [expandAll, List.mem_append, ih, List.mem_cons]
      constructor
      · rintro (hx | ⟨c', hc', hx⟩)
        · exact ⟨c, Or.inl rfl, hx⟩
        · exact ⟨c', Or.inr hc', hx⟩
      · rintro ⟨c', hc' | hc', hx⟩
        · subst hc'; exact Or.inl hx
        · exact Or.inr ⟨c', hc', hx⟩

theorem expandAll_eq_self (g : Nat → List Nat) (s : List Nat)
    (h : ∀ x ∈ s, g x = [x]) : expandAll g s = s := by
  induction s with
  | nil => rfl
  | cons c rest ih =>
      simp only [expandAll, h c (List.mem_cons_self c rest),
        List.singleton_append, List.cons.injEq, true_and]
      exact ih (fun x hx => h x (List.mem_cons_of_mem c hx))

theorem expandAll_length_ge (g : Nat → List Nat) (s : List Nat)
    (h : ∀ c, 1 ≤ (g c).length) : s.length ≤ (expandAll g s).length := by
  induction s with
  | nil => simp [expandAll]
  | cons c rest ih =>
      simp only [expandAll, List.length_append, List.length_cons]
      have := h c
      omega

theorem expandAll_length_gt (g : Nat → List Nat) (s : List Nat)
    (h : ∀ c, 1 ≤ (g c).length) {c0 : Nat} (hc0 : c0 ∈ s)
    (h2 : 2 ≤ (g c0).length) : s.length < (expandAll g s).length := by
  induction s with
  | nil => simp at hc0
  | cons c rest ih =>
      simp only [expandAll, List.length_append, List.length_cons]
      rcases List.mem_cons.mp hc0 with rfl | hc0
      · have := expandAll_length_ge g rest h
        omega
      · have := ih hc0
        have := h c
        omega

/-! ### Character database facts -/

theorem dc_of_not {c : Nat} (h1 : ¬ isHangulSyllable c) (h2 : c ≠ 0xC5)
    (h3 : c ≠ 0x340) : decompose_canonical c = [c] := by
  unfold decompose_canonical
  rw [if_neg h1, if_neg h2, if_neg h3]

theorem dk_of_not {c : Nat} (h1 : ¬ isHangulSyllable c) (h2 : c ≠ 0xC5)
    (h3 : c ≠ 0x340) (h4 : c ≠ 0xFB01) : decompose_compatible c = [c] := by
  unfold decompose_compatible
  rw [if_neg h1, if_neg h2, if_neg h3, if_neg h4]

theorem hangul_lv {a b : Nat} (ha1 : 0x1100 ≤ a) (ha2 : a < 0x1113)
    (hb1 : 0x1161 ≤ b) (hb2 : b < 0x1176) :
    hangulDecompose (0xAC00 + ((a - 0x1100) * 21 + (b - 0x1161)) * 28) = [a, b]
      ∧ isHangulSyllable (0xAC00 + ((a - 0x1100) * 21 + (b - 0x1161)) * 28)
      ∧ (0xAC00 + ((a - 0x1100) * 21 + (b - 0x1161)) * 28 - 0xAC00) % 28 = 0 := by
  refine ⟨?_, ?_, ?_⟩
  · unfold hangulDecompose
    rw [if_pos (by omega)]
    simp only [List.cons.injEq, and_true]
    constructor <;> omega
  · unfold isHangulSyllable
    omega
  · omega

theorem hangul_lvt {a b : Nat} (ha : isHangulSyllable a)
    (ht : (a - 0xAC00) % 28 = 0) (hb1 : 0x11A7 < b) (hb2 : b < 0x11C3) :
    hangulDecompose (a + (b - 0x11A7)) = hangulDecompose a ++ [b]
      ∧ isHangulSyllable (a + (b - 0x11A7)) := by
  unfold isHangulSyllable at ha
  have h588 : (a - 0xAC00) % 588 % 28 = 0 := by
    rw [Nat.mod_mod_of_dvd _ (by norm_num : (28:ℕ) ∣ 588)]
    exact ht
  constructor
  · unfold hangulDecompose
    rw [if_pos ht, if_neg (by omega)]
    simp only [List.cons_append, List.nil_append, List.cons.injEq, and_true]
    refine ⟨?_, ?_, ?_⟩ <;> omega
  · unfold isHangulSyllable
    omega

theorem hangul_len {c : Nat} : 2 ≤ (hangulDecompose c).length := by
  simp only [hangulDecompose]
  split <;> simp

theorem hangul_mem {c x : Nat} (hc : isHangulSyllable c)
    (hx : x ∈ hangulDecompose c) :
    (0x1100 ≤ x ∧ x < 0x1113) ∨ (0x1161 ≤ x ∧ x < 0x1176)
      ∨ (0x11A7 < x ∧ x < 0x11C3) := by
  unfold isHangulSyllable at hc
  simp only [hangulDecompose] at hx
  split at hx <;>
    simp only [List.mem_cons, List.mem_singleton, List.not_mem_nil, or_false] at hx
  · rcases hx with h | h
    · left; omega
    · right; left; omega
  · rcases hx with h | h | h
    · left; omega
    · right; left; omega
    · right; right; omega

theorem dc_atomic {c x : Nat} (hx : x ∈ decompose_canonical c) :
    decompose_canonical x = [x] := by
  unfold decompose_canonical at hx
  split at hx
  · rcases hangul_mem (by assumption) hx with h | h | h <;>
      · apply dc_of_not
        · unfold isHangulSyllable; omega
        · omega
        · omega
  · split at hx
    · simp only [List.mem_cons, List.mem_singleton, List.not_mem_nil,
        or_false] at hx
      rcases hx with rfl | rfl <;> decide
    · split at hx
      · simp only [List.mem_singleton] at hx
        subst hx; decide
      · simp only [List.mem_singleton] at hx
        subst hx
        apply dc_of_not <;> assumption

theorem dk_atomic {c x : Nat} (hx : x ∈ decompose_compatible c) :
    decompose_compatible x = [x] := by
  unfold decompose_compatible at hx
  split at hx
  · rcases hangul_mem (by assumption) hx with h | h | h <;>
      · apply dk_of_not
        · unfold isHangulSyllable; omega
        · omega
        · omega
        · omega
  · split at hx
    · simp only [List.mem_cons, List.mem_singleton, List.not_mem_nil,
        or_false] at hx
      rcases hx with rfl | rfl <;> decide
    · split at hx
      · simp only [List.mem_singleton] at hx
        subst hx; decide
      · split at hx
        · simp only [List.mem_cons, List.mem_singleton, List.not_mem_nil,
            or_false] at hx
          rcases hx with rfl | rfl <;> decide
        · simp only [List.mem_singleton] at hx
          subst hx
          apply dk_of_not <;> assumption

theorem dc_cases (c : Nat) :
    decompose_canonical c = [c] ∨ c = 0x340 ∨ 2 ≤ (decompose_canonical c).length := by
  unfold decompose_canonical
  split
  · right; right; exact hangul_len
  · split
    · right; right; simp
    · split
      · right; left; assumption
      · left; rfl

theorem dk_cases (c : Nat) :
    decompose_compatible c = [c] ∨ c = 0x340 ∨ 2 ≤ (decompose_compatible c).length := by
  unfold decompose_compatible
  split
  · right; right; exact hangul_len
  · split
    · right; right; simp
    · split
      · right; left; assumption
      · split
        · right; right; simp
        · left; rfl

theorem dc_len_pos (c : Nat) : 1 ≤ (decompose_canonical c).length := by
  unfold decompose_canonical
  split
  · exact Nat.le_trans (by norm_num) hangul_len
  · split
    · simp
    · split <;> simp

theorem dk_len_pos (c : Nat) : 1 ≤ (decompose_compatible c).length := by
  unfold decompose_compatible
  split
  · exact Nat.le_trans (by norm_num) hangul_len
  · split
    · simp
    · split
      · simp
      · split <;> simp

theorem dc_no340 {c x : Nat} (hx : x ∈ decompose_canonical c) : x ≠ 0x340 := by
  unfold decompose_canonical at hx
  split at hx
  · rcases hangul_mem (by assumption) hx with h | h | h <;> omega
  · split at hx
    · simp only [List.mem_cons, List.mem_singleton, List.not_mem_nil,
        or_false] at hx
      rcases hx with rfl | rfl <;> decide
    · split at hx
      · simp only [List.mem_singleton] at hx
        subst hx; decide
      · simp only [List.mem_singleton] at hx
        subst hx; assumption

theorem dk_noX {c x : Nat} (hx : x ∈ decompose_compatible c) :
    x ≠ 0x340 ∧ x ≠ 0xFB01 := by
  unfold decompose_compatible at hx
  split at hx
  · rcases hangul_mem (by assumption) hx with h | h | h <;> constructor <;> omega
  · split at hx
    · simp only [List.mem_cons, List.mem_singleton, List.not_mem_nil,
        or_false] at hx
      rcases hx with rfl | rfl <;> constructor <;> decide
    · split at hx
      · simp only [List.mem_singleton] at hx
        subst hx; constructor <;> decide
      · split at hx
        · simp only [List.mem_cons, List.mem_singleton, List.not_mem_nil,
            or_false] at hx
          rcases hx with rfl | rfl <;> constructor <;> decide
        · simp only [List.mem_singleton] at hx
          subst hx; exact ⟨by assumption, by assumption⟩

theorem dc_hangul {c : Nat} (h : isHangulSyllable c) :
    decompose_canonical c = hangulDecompose c := by
  unfold decompose_canonical
  rw [if_pos h]

theorem dk_hangul {c : Nat} (h : isHangulSyllable c) :
    decompose_compatible c = hangulDecompose c := by
  unfold decompose_compatible
  rw [if_pos h]

theorem compose_coherent_c {a b r : Nat} (h : compose a b = some r) :
    decompose_canonical r = decompose_canonical a ++ [b] := by
  unfold compose at h
  split at h
  · rename_i hab
    obtain ⟨rfl, rfl⟩ := hab
    have hr : (0xC5 : Nat) = r := Option.some.inj h
    subst hr
    decide
  · split at h
    · rename_i hlv
      obtain ⟨ha1, ha2, hb1, hb2⟩ := hlv
      have hr := Option.some.inj h
      subst hr
      have hmain := hangul_lv ha1 ha2 hb1 hb2
      rw [dc_hangul hmain.2.1, hmain.1,
        dc_of_not (c := a) (by unfold isHangulSyllable; omega) (by omega)
          (by omega)]
      rfl
    · split at h
      · rename_i hlvt
        obtain ⟨ha1, ha2, hmod, hb1, hb2⟩ := hlvt
        have hr := Option.some.inj h
        subst hr
        have hmain := hangul_lvt ⟨ha1, ha2⟩ hmod hb1 hb2
        rw [dc_hangul hmain.2, dc_hangul ⟨ha1, ha2⟩, hmain.1]
      · exact absurd h (by simp)

theorem compose_coherent_k {a b r : Nat} (h : compose a b = some r) :
    decompose_compatible r = decompose_compatible a ++ [b] := by
  unfold compose at h
  split at h
  · rename_i hab
    obtain ⟨rfl, rfl⟩ := hab
    have hr : (0xC5 : Nat) = r := Option.some.inj h
    subst hr
    decide
  · split at h
    · rename_i hlv
      obtain ⟨ha1, ha2, hb1, hb2⟩ := hlv
      have hr := Option.some.inj h
      subst hr
      have hmain := hangul_lv ha1 ha2 hb1 hb2
      rw [dk_hangul hmain.2.1, hmain.1,
        dk_of_not (c := a) (by unfold isHangulSyllable; omega) (by omega)
          (by omega) (by omega)]
      rfl
    · split at h
      · rename_i hlvt
        obtain ⟨ha1, ha2, hmod, hb1, hb2⟩ := hlvt
        have hr := Option.some.inj h
        subst hr
        have hmain := hangul_lvt ⟨ha1, ha2⟩ hmod hb1 hb2
        rw [dk_hangul hmain.2, dk_hangul ⟨ha1, ha2⟩, hmain.1]
      · exact absurd h (by simp)

theorem compose_second {a b r : Nat} (h : compose a b = some r) : secondable b := by
  unfold compose at h
  unfold secondable
  split at h
  · rename_i hab
    left; exact hab.2
  · split at h
    · rename_i hlv
      right; left; exact ⟨hlv.2.2.1, hlv.2.2.2⟩
    · split at h
      · rename_i hlvt
        right; right; exact ⟨hlvt.2.2.2.1, hlvt.2.2.2.2⟩
      · exact absurd h (by simp)

theorem compose_range {a b r : Nat} (h : compose a b = some r) :
    r = 0xC5 ∨ (0xAC00 ≤ r ∧ r < 0xD7A4) := by
  unfold compose at h
  split at h
  · have hr := Option.some.inj h
    left; omega
  · split at h
    · rename_i hlv
      have hr := Option.some.inj h
      right
      obtain ⟨ha1, ha2, hb1, hb2⟩ := hlv
      omega
    · split at h
      · rename_i hlvt
        have hr := Option.some.inj h
        right
        obtain ⟨ha1, ha2, hmod, hb1, hb2⟩ := hlvt
        omega
      · exact absurd h (by simp)

/-! ### Composer lemmas -/

/-- The pending starter's decomposition under a decomposition function. -/
def pendingDecomp (g : Nat → List Nat) : Option (Nat × Nat) → List Nat
  | none => []
  | some (st, _) => g st

/-- Re-decomposing the Composer's output recovers its (atomic) input: each
composite expands back to exactly the characters that were merged into it. -/
theorem composeAux_expand (g : Nat → List Nat)
    (hco : ∀ a b r, compose a b = some r → g r = g a ++ [b]) :
    ∀ (t : List Nat) (p : Option (Nat × Nat)),
      (∀ x ∈ t, g x = [x]) →
      expandAll g (composeAux p t) = pendingDecomp g p ++ t := by
  intro t
  induction t with
  | nil =>
      intro p _
      rcases p with _ | ⟨st, last⟩
      · rfl
      · simp [composeAux, expandAll, pendingDecomp]
  | cons ch rest ih =>
      intro p hatom
      have hch : g ch = [ch] := hatom ch (List.mem_cons_self ch rest)
      have hrest : ∀ x ∈ rest, g x = [x] :=
        fun x hx => hatom x (List.mem_cons_of_mem ch hx)
      rcases p with _ | ⟨st, last⟩
      · simp only [composeAux]
        by_cases h0 : canonical_combining_class ch = 0
        · rw [if_pos h0, ih (some (ch, 0)) hrest]
          simp [pendingDecomp, hch]
        · rw [if_neg h0]
          simp only [expandAll, pendingDecomp]
          rw [ih none hrest, hch]
          rfl
      · simp only [composeAux]
        cases hcomp : compose st ch with
        | some r =>
            simp only [hcomp]
            by_cases hcond : canonical_combining_class ch = 0
              ∨ last < canonical_combining_class ch
            · rw [if_pos hcond, ih (some (r, canonical_combining_class ch)) hrest]
              simp only [pendingDecomp]
              rw [hco st ch r hcomp, List.append_assoc]
              rfl
            · rw [if_neg hcond]
              simp only [expandAll, pendingDecomp]
              rw [ih none hrest, hch]
              simp [pendingDecomp]
        | none =>
            simp only [hcomp]
            by_cases h0 : canonical_combining_class ch = 0
            · rw [if_pos h0]
              simp only [expandAll, pendingDecomp]
              rw [ih (some (ch, 0)) hrest]
              simp [pendingDecomp, hch]
            · rw [if_neg h0]
              simp only [expandAll, pendingDecomp]
              rw [ih none hrest, hch]
              simp [pendingDecomp]

/-- The pending starter as emitted output. -/
def pendingOut : Option (Nat × Nat) → List Nat
  | none => []
  | some (st, _) => [st]

/-- On input containing no potential second component of a composition pair,
the Composer changes nothing. -/
theorem composeAux_id :
    ∀ (t : List Nat) (p : Option (Nat × Nat)),
      (∀ x ∈ t, ¬ secondable x) →
      composeAux p t = pendingOut p ++ t := by
  intro t
  induction t with
  | nil =>
      intro p _
      rcases p with _ | ⟨st, last⟩ <;> rfl
  | cons ch rest ih =>
      intro p hsec
      have hch : ¬ secondable ch := hsec ch (List.mem_cons_self ch rest)
      have hrest : ∀ x ∈ rest, ¬ secondable x :=
        fun x hx => hsec x (List.mem_cons_of_mem ch hx)
      rcases p with _ | ⟨st, last⟩
      · simp only [composeAux]
        by_cases h0 : canonical_combining_class ch = 0
        · rw [if_pos h0, ih (some (ch, 0)) hrest]
          rfl
        · rw [if_neg h0, ih none hrest]
          rfl
      · simp only [composeAux]
        cases hcomp : compose st ch with
        | some r => exact absurd (compose_second hcomp) hch
        | none =>
            simp only [hcomp]
            by_cases h0 : canonical_combining_class ch = 0
            · rw [if_pos h0, ih (some (ch, 0)) hrest]
              rfl
            · rw [if_neg h0, ih none hrest]
              rfl

/-- Characters that are neither inputs, pending starters, nor possible
composites never occur in the Composer's output. -/
theorem composeAux_not_mem (X : Nat)
    (hX : ∀ a b r, compose a b = some r → r ≠ X) :
    ∀ (t : List Nat) (p : Option (Nat × Nat)),
      (∀ x ∈ t, x ≠ X) →
      (∀ st last, p = some (st, last) → st ≠ X) →
      ∀ y ∈ composeAux p t, y ≠ X := by
  intro t
  induction t with
  | nil =>
      intro p ht hp y hy
      rcases p with _ | ⟨st, last⟩
      · simp [composeAux] at hy
      · simp only [composeAux, List.mem_singleton] at hy
        subst hy
        exact hp y last rfl
  | cons ch rest ih =>
      intro p ht hp y hy
      have hch : ch ≠ X := ht ch (List.mem_cons_self ch rest)
      have hrest : ∀ x ∈ rest, x ≠ X :=
        fun x hx => ht x (List.mem_cons_of_mem ch hx)
      rcases p with _ | ⟨st, last⟩
      · simp only [composeAux] at hy
        by_cases h0 : canonical_combining_class ch = 0
        · rw [if_pos h0] at hy
          exact ih (some (ch, 0)) hrest
            (by rintro st' l' hsl; cases hsl; exact hch) y hy
        · rw [if_neg h0] at hy
          rcases List.mem_cons.mp hy with rfl | hy
          · exact hch
          · exact ih none hrest (by rintro st' l' hsl; cases hsl) y hy
      · have hst : st ≠ X := hp st last rfl
        simp only [composeAux] at hy
        cases hcomp : compose st ch with
        | some r =>
            rw [hcomp] at hy
            simp only at hy
            by_cases hcond : canonical_combining_class ch = 0
              ∨ last < canonical_combining_class ch
            · rw [if_pos hcond] at hy
              exact ih (some (r, canonical_combining_class ch)) hrest
                (by rintro st' l' hsl; cases hsl; exact hX st ch r hcomp) y hy
            · rw [if_neg hcond] at hy
              rcases List.mem_cons.mp hy with rfl | hy
              · exact hst
              · rcases List.mem_cons.mp hy with rfl | hy
                · exact hch
                · exact ih none hrest (by rintro st' l' hsl; cases hsl) y hy
        | none =>
            rw [hcomp] at hy
            simp only at hy
            by_cases h0 : canonical_combining_class ch = 0
            · rw [if_pos h0] at hy
              rcases List.mem_cons.mp hy with rfl | hy
              · exact hst
              · exact ih (some (ch, 0)) hrest
                  (by rintro st' l' hsl; cases hsl; exact hch) y hy
            · rw [if_neg h0] at hy
              rcases List.mem_cons.mp hy with rfl | hy
              · exact hst
              · rcases List.mem_cons.mp hy with rfl | hy
                · exact hch
                · exact ih none hrest (by rintro st' l' hsl; cases hsl) y hy

/-! ### The normalization-form algebra -/

theorem nfd_atomic {s : List Nat} :
    ∀ x ∈ nfd s, decompose_canonical x = [x] := by
  intro x hx
  unfold nfd at hx
  rw [ccOrder_mem, expandAll_mem] at hx
  obtain ⟨c, _, hx⟩ := hx
  exact dc_atomic hx

theorem nfkd_atomic {s : List Nat} :
    ∀ x ∈ nfkd s, decompose_compatible x = [x] := by
  intro x hx
  unfold nfkd at hx
  rw [ccOrder_mem, expandAll_mem] at hx
  obtain ⟨c, _, hx⟩ := hx
  exact dk_atomic hx

theorem nfd_idem (s : List Nat) : nfd (nfd s) = nfd s := by
  conv_lhs => rw [nfd]
  rw [expandAll_eq_self _ _ nfd_atomic]
  exact ccOrder_idem _

theorem nfkd_idem (s : List Nat) : nfkd (nfkd s) = nfkd s := by
  conv_lhs => rw [nfkd]
  rw [expandAll_eq_self _ _ nfkd_atomic]
  exact ccOrder_idem _

theorem nfd_nfc (s : List Nat) : nfd (nfc s) = nfd s := by
  conv_lhs => rw [nfd]
  unfold nfc composeSeq
  rw [composeAux_expand decompose_canonical
    (fun a b r h => compose_coherent_c h) (nfd s) none nfd_atomic]
  show ccOrder (nfd s) = nfd s
  exact ccOrder_idem _

theorem nfkd_nfkc (s : List Nat) : nfkd (nfkc s) = nfkd s := by
  conv_lhs => rw [nfkd]
  unfold nfkc composeSeq
  rw [composeAux_expand decompose_compatible
    (fun a b r h => compose_coherent_k h) (nfkd s) none nfkd_atomic]
  show ccOrder (nfkd s) = nfkd s
  exact ccOrder_idem _

theorem nfc_idem (s : List Nat) : nfc (nfc s) = nfc s := by
  conv_lhs => rw [nfc]
  rw [nfd_nfc]
  rfl

theorem nfkc_idem (s : List Nat) : nfkc (nfkc s) = nfkc s := by
  conv_lhs => rw [nfkc]
  rw [nfkd_nfkc]
  rfl

/-! ### Quick-check characterization -/

theorem qcStep_no {a b : IsNormalized} :
    qcStep a b = .No ↔ a = .No ∨ b = .No := by
  cases a <;> cases b <;> simp [qcStep]

theorem qcStep_yes {a b : IsNormalized} :
    qcStep a b = .Yes ↔ a = .Yes ∧ b = .Yes := by
  cases a <;> cases b <;> simp [qcStep]

/-- The scan's verdict is No exactly when it started at No or some character's
per-form flag is No. -/
theorem qcAux_no (F : Form) :
    ∀ (s : List Nat) (last : Nat) (acc : IsNormalized),
      (qcAux F last acc s = .No ↔ acc = .No ∨ ∃ c ∈ s, quick_check_flag F c = .No) := by
  intro s
  induction s with
  | nil => intro last acc; simp [qcAux]
  | cons c rest ih =>
      intro last acc
      rw [show qcAux F last acc (c :: rest)
        = qcAux F (canonical_combining_class c)
            (qcStep
              (if canonical_combining_class c ≠ 0 ∧ canonical_combining_class c < last then
                qcStep acc .Maybe
              else acc)
              (quick_check_flag F c)) rest from rfl]
      rw [ih]
      have hA : qcStep
          (if canonical_combining_class c ≠ 0 ∧ canonical_combining_class c < last then
            qcStep acc .Maybe
          else acc) (quick_check_flag F c) = .No
          ↔ (acc = .No ∨ quick_check_flag F c = .No) := by
        by_cases hcond : canonical_combining_class c ≠ 0
          ∧ canonical_combining_class c < last
        · rw [if_pos hcond]
          simp [qcStep_no]
        · rw [if_neg hcond]
          simp [qcStep_no]
      rw [hA]
      simp only [List.mem_cons, exists_eq_or_imp]
      tauto

/-- The scan's verdict is Yes exactly when it started at Yes, every
character's per-form flag is Yes, and no out-of-order pair occurs. -/
theorem qcAux_yes (F : Form) :
    ∀ (s : List Nat) (last : Nat) (acc : IsNormalized),
      (qcAux F last acc s = .Yes
        ↔ acc = .Yes ∧ (∀ c ∈ s, quick_check_flag F c = .Yes)
            ∧ hasDisorder last s = false) := by
  intro s
  induction s with
  | nil => intro last acc; simp [qcAux, hasDisorder]
  | cons c rest ih =>
      intro last acc
      rw [show qcAux F last acc (c :: rest)
        = qcAux F (canonical_combining_class c)
            (qcStep
              (if canonical_combining_class c ≠ 0 ∧ canonical_combining_class c < last then
                qcStep acc .Maybe
              else acc)
              (quick_check_flag F c)) rest from rfl]
      rw [ih]
      rw [show hasDisorder last (c :: rest)
        = ((decide (canonical_combining_class c ≠ 0
              ∧ canonical_combining_class c < last))
            || hasDisorder (canonical_combining_class c) rest) from rfl]
      by_cases hcond : canonical_combining_class c ≠ 0
        ∧ canonical_combining_class c < last
      · rw [if_pos hcond]
        constructor
        · rintro ⟨hy, _, _⟩
          have h2 := (qcStep_yes.mp hy).1
          have h3 := (qcStep_yes.mp h2).2
          exact absurd h3 (by simp)
        · rintro ⟨_, _, hdis⟩
          rw [decide_eq_true hcond] at hdis
          simp at hdis
      · rw [if_neg hcond]
        simp only [qcStep_yes, Bool.or_eq_false_iff, decide_eq_false_iff_not,
          List.forall_mem_cons]
        tauto

/-! ### Per-form flag facts -/

theorem flag_nfd_yes {c : Nat} :
    quick_check_flag .NFD c = .Yes ↔ decompose_canonical c = [c] := by
  simp only [quick_check_flag]
  split <;> simp_all

theorem flag_nfkd_yes {c : Nat} :
    quick_check_flag .NFKD c = .Yes ↔ decompose_compatible c = [c] := by
  simp only [quick_check_flag]
  split <;> simp_all

theorem flag_nfd_no {c : Nat} (h : quick_check_flag .NFD c = .No) :
    decompose_canonical c ≠ [c] := by
  simp only [quick_check_flag] at h
  split at h
  · exact absurd h (by simp)
  · assumption

theorem flag_nfkd_no {c : Nat} (h : quick_check_flag .NFKD c = .No) :
    decompose_compatible c ≠ [c] := by
  simp only [quick_check_flag] at h
  split at h
  · exact absurd h (by simp)
  · assumption

theorem flag_nfc_yes {c : Nat} (h : quick_check_flag .NFC c = .Yes) :
    decompose_canonical c = [c] ∧ ¬ secondable c := by
  simp only [quick_check_flag] at h
  split at h
  · exact absurd h (by simp)
  · split at h
    · exact absurd h (by simp)
    · rename_i h340 hmaybe
      push_neg at hmaybe
      refine ⟨dc_of_not ?_ ?_ h340, hmaybe.1⟩
      · intro hh; exact hmaybe.2.2 hh
      · exact hmaybe.2.1

theorem flag_nfc_no {c : Nat} (h : quick_check_flag .NFC c = .No) : c = 0x340 := by
  simp only [quick_check_flag] at h
  split at h
  · assumption
  · split at h <;> exact absurd h (by simp)

theorem flag_nfkc_yes {c : Nat} (h : quick_check_flag .NFKC c = .Yes) :
    decompose_compatible c = [c] ∧ ¬ secondable c := by
  simp only [quick_check_flag] at h
  split at h
  · exact absurd h (by simp)
  · split at h
    · exact absurd h (by simp)
    · rename_i h340 hmaybe
      push_neg at h340
      push_neg at hmaybe
      refine ⟨dk_of_not ?_ ?_ h340.1 h340.2, hmaybe.1⟩
      · intro hh; exact hmaybe.2.2 hh
      · exact hmaybe.2.1

theorem flag_nfkc_no {c : Nat} (h : quick_check_flag .NFKC c = .No) :
    c = 0x340 ∨ c = 0xFB01 := by
  simp only [quick_check_flag] at h
  split at h
  · assumption
  · split at h <;> exact absurd h (by simp)

/-! ### Quick-check soundness helpers -/

theorem nfd_not340 {s : List Nat} : ∀ y ∈ nfd s, y ≠ 0x340 := by
  intro y hy
  unfold nfd at hy
  rw [ccOrder_mem, expandAll_mem] at hy
  obtain ⟨c, _, hy⟩ := hy
  exact dc_no340 hy

theorem nfkd_notX {s : List Nat} : ∀ y ∈ nfkd s, y ≠ 0x340 ∧ y ≠ 0xFB01 := by
  intro y hy
  unfold nfkd at hy
  rw [ccOrder_mem, expandAll_mem] at hy
  obtain ⟨c, _, hy⟩ := hy
  exact dk_noX hy

theorem nfc_not340 {s : List Nat} : ∀ y ∈ nfc s, y ≠ 0x340 := by
  intro y hy
  refine composeAux_not_mem 0x340 ?_ (nfd s) none nfd_not340 (by rintro _ _ h; cases h) y hy
  intro a b r h
  rcases compose_range h with h1 | h1 <;> omega

theorem nfkc_notX {s : List Nat} : ∀ y ∈ nfkc s, y ≠ 0x340 ∧ y ≠ 0xFB01 := by
  intro y hy
  constructor
  · refine composeAux_not_mem 0x340 ?_ (nfkd s) none
      (fun x hx => (nfkd_notX x hx).1) (by rintro _ _ h; cases h) y hy
    intro a b r h
    rcases compose_range h with h1 | h1 <;> omega
  · refine composeAux_not_mem 0xFB01 ?_ (nfkd s) none
      (fun x hx => (nfkd_notX x hx).2) (by rintro _ _ h; cases h) y hy
    intro a b r h
    rcases compose_range h with h1 | h1 <;> omega

theorem quickCheck_yes_nfd {s : List Nat} (h : quickCheck .NFD s = .Yes) :
    nfd s = s := by
  unfold quickCheck at h
  rw [qcAux_yes] at h
  obtain ⟨_, hall, hord⟩ := h
  unfold nfd
  rw [expandAll_eq_self _ _ (fun x hx => flag_nfd_yes.mp (hall x hx))]
  exact ccOrder_eq_self hord

theorem quickCheck_yes_nfkd {s : List Nat} (h : quickCheck .NFKD s = .Yes) :
    nfkd s = s := by
  unfold quickCheck at h
  rw [qcAux_yes] at h
  obtain ⟨_, hall, hord⟩ := h
  unfold nfkd
  rw [expandAll_eq_self _ _ (fun x hx => flag_nfkd_yes.mp (hall x hx))]
  exact ccOrder_eq_self hord

theorem quickCheck_yes_nfc {s : List Nat} (h : quickCheck .NFC s = .Yes) :
    nfc s = s := by
  unfold quickCheck at h
  rw [qcAux_yes] at h
  obtain ⟨_, hall, hord⟩ := h
  have hstep : nfd s = s := by
    unfold nfd
    rw [expandAll_eq_self _ _ (fun x hx => (flag_nfc_yes (hall x hx)).1)]
    exact ccOrder_eq_self hord
  unfold nfc composeSeq
  rw [hstep]
  exact composeAux_id s none (fun x hx => (flag_nfc_yes (hall x hx)).2)

theorem quickCheck_yes_nfkc {s : List Nat} (h : quickCheck .NFKC s = .Yes) :
    nfkc s = s := by
  unfold quickCheck at h
  rw [qcAux_yes] at h
  obtain ⟨_, hall, hord⟩ := h
  have hstep : nfkd s = s := by
    unfold nfkd
    rw [expandAll_eq_self _ _ (fun x hx => (flag_nfkc_yes (hall x hx)).1)]
    exact ccOrder_eq_self hord
  unfold nfkc composeSeq
  rw [hstep]
  exact composeAux_id s none (fun x hx => (flag_nfkc_yes (hall x hx)).2)

theorem quickCheck_no_nfd {s : List Nat} (h : quickCheck .NFD s = .No) :
    nfd s ≠ s := by
  unfold quickCheck at h
  rw [qcAux_no] at h
  rcases h with h | ⟨c, hc, hflag⟩
  · exact absurd h (by simp)
  · have hne := flag_nfd_no hflag
    rcases dc_cases c with h1 | h1 | h1
    · exact absurd h1 hne
    · subst h1
      intro heq
      exact nfd_not340 0x340 (heq ▸ hc) rfl
    · intro heq
      have hlen : s.length < (nfd s).length := by
        unfold nfd
        rw [ccOrder_length]
        exact expandAll_length_gt _ s dc_len_pos hc h1
      rw [heq] at hlen
      omega

theorem quickCheck_no_nfkd {s : List Nat} (h : quickCheck .NFKD s = .No) :
    nfkd s ≠ s := by
  unfold quickCheck at h
  rw [qcAux_no] at h
  rcases h with h | ⟨c, hc, hflag⟩
  · exact absurd h (by simp)
  · have hne := flag_nfkd_no hflag
    rcases dk_cases c with h1 | h1 | h1
    · exact absurd h1 hne
    · subst h1
      intro heq
      exact (nfkd_notX 0x340 (heq ▸ hc)).1 rfl
    · intro heq
      have hlen : s.length < (nfkd s).length := by
        unfold nfkd
        rw [ccOrder_length]
        exact expandAll_length_gt _ s dk_len_pos hc h1
      rw [heq] at hlen
      omega

theorem quickCheck_no_nfc {s : List Nat} (h : quickCheck .NFC s = .No) :
    nfc s ≠ s := by
  unfold quickCheck at h
  rw [qcAux_no] at h
  rcases h with h | ⟨c, hc, hflag⟩
  · exact absurd h (by simp)
  · have h340 := flag_nfc_no hflag
    subst h340
    intro heq
    exact nfc_not340 0x340 (heq ▸ hc) rfl

theorem quickCheck_no_nfkc {s : List Nat} (h : quickCheck .NFKC s = .No) :
    nfkc s ≠ s := by
  unfold quickCheck at h
  rw [qcAux_no] at h
  rcases h with h | ⟨c, hc, hflag⟩
  · exact absurd h (by simp)
  · intro heq
    rcases flag_nfkc_no hflag with h1 | h1 <;> subst h1
    · exact (nfkc_notX 0x340 (heq ▸ hc)).1 rfl
    · exact (nfkc_notX 0xFB01 (heq ▸ hc)).2 rfl

/-! ### Claim theorems: transform algebra -/

/-- C1: each of the four normalization transforms is idempotent:
nfc (nfc s) = nfc s, nfd (nfd s) = nfd s, nfkc (nfkc s) = nfkc s and
nfkd (nfkd s) = nfkd s, for every sequence of scalar values. -/
theorem claim_C1_idempotence (s : List Nat) :
    nfc (nfc s) = nfc s ∧ nfd (nfd s) = nfd s
      ∧ nfkc (nfkc s) = nfkc s ∧ nfkd (nfkd s) = nfkd s :=
  ⟨nfc_idem s, nfd_idem s, nfkc_idem s, nfkd_idem s⟩

/-- C3: composing after first fully decomposing gives the same result as
composing directly: nfc (nfd s) = nfc s for every sequence. -/
theorem claim_C3_canonical_equivalence (s : List Nat) : nfc (nfd s) = nfc s := by
  conv_lhs => rw [nfc]
  rw [nfd_idem]
  rfl

/-- C4: decomposing a composed result gives the same output as decomposing
the original: nfd (nfc s) = nfd s for every sequence. -/
theorem claim_C4_decomposition_stability (s : List Nat) : nfd (nfc s) = nfd s :=
  nfd_nfc s

/-- C2: per-form quick-check soundness: a Yes verdict means the full
transform of the sequence returns it unchanged; a No verdict means the full
transform changes it. -/
theorem claim_C2_quick_check_soundness (F : Form) (s : List Nat) :
    (quickCheck F s = .Yes → normalizeForm F s = s)
      ∧ (quickCheck F s = .No → normalizeForm F s ≠ s) := by
  cases F
  · exact ⟨quickCheck_yes_nfd, quickCheck_no_nfd⟩
  · exact ⟨quickCheck_yes_nfkd, quickCheck_no_nfkd⟩
  · exact ⟨quickCheck_yes_nfc, quickCheck_no_nfc⟩
  · exact ⟨quickCheck_yes_nfkc, quickCheck_no_nfkc⟩

/-- Witness for C2 at concrete inputs: a Yes verdict on [A] for NFC with the
transform an identity there, and a No verdict on [U+00C5] for NFD with the
transform changing it. -/
theorem claim_C2_witness :
    normalizeForm .NFC [0x41] = [0x41] ∧ normalizeForm .NFD [0xC5] ≠ [0xC5] :=
  ⟨(claim_C2_quick_check_soundness .NFC [0x41]).1 (by decide),
   (claim_C2_quick_check_soundness .NFD [0xC5]).2 (by decide)⟩

/-- C7: an adjacent out-of-canonical-order pair of combining marks forces the
quick-check verdict away from Yes, and when every individual per-form flag is
Yes the verdict is exactly Maybe. -/
theorem claim_C7_disorder_forces_maybe (F : Form) (s : List Nat)
    (h : hasDisorder 0 s = true) :
    quickCheck F s ≠ .Yes
      ∧ ((∀ c ∈ s, quick_check_flag F c = .Yes) → quickCheck F s = .Maybe) := by
  constructor
  · intro hy
    unfold quickCheck at hy
    rw [qcAux_yes] at hy
    rw [hy.2.2] at h
    cases h
  · intro hall
    cases hv : quickCheck F s
    · exfalso
      unfold quickCheck at hv
      rw [qcAux_yes] at hv
      rw [hv.2.2] at h
      cases h
    · exfalso
      unfold quickCheck at hv
      rw [qcAux_no] at hv
      rcases hv with hv | ⟨c, hc, hflag⟩
      · exact absurd hv (by simp)
      · rw [hall c hc] at hflag
        cases hflag
    · rfl

/-- Witness for C7: the sequence [U+0301, U+0316] (classes 230 then 220) is
out of canonical order, every flag is Yes for NFC, and the verdict is Maybe. -/
theorem claim_C7_witness : quickCheck .NFC [0x301, 0x316] = .Maybe :=
  (claim_C7_disorder_forces_maybe .NFC [0x301, 0x316] (by decide)).2 (by decide)

/-! ### Hangul round trip -/

/-- C6: every precomposed Hangul syllable decomposes to exactly its
arithmetically-computed leading/vowel(/trailing) jamo sequence of 2 or 3
codepoints, and composing that sequence back (L+V, then LV+T when a trailing
jamo is present) yields exactly the original syllable. -/
theorem claim_C6_hangul_round_trip (c : Nat) (h1 : 0xAC00 ≤ c) (h2 : c < 0xD7A4) :
    ((c - 0xAC00) % 28 = 0 →
      decompose_canonical c
        = [0x1100 + (c - 0xAC00) / 588, 0x1161 + (c - 0xAC00) % 588 / 28]
      ∧ compose (0x1100 + (c - 0xAC00) / 588) (0x1161 + (c - 0xAC00) % 588 / 28)
          = some c)
    ∧ ((c - 0xAC00) % 28 ≠ 0 →
      decompose_canonical c
        = [0x1100 + (c - 0xAC00) / 588, 0x1161 + (c - 0xAC00) % 588 / 28,
           0x11A7 + (c - 0xAC00) % 28]
      ∧ compose (0x1100 + (c - 0xAC00) / 588) (0x1161 + (c - 0xAC00) % 588 / 28)
          = some (c - (c - 0xAC00) % 28)
      ∧ compose (c - (c - 0xAC00) % 28) (0x11A7 + (c - 0xAC00) % 28) = some c) := by
  rw [dc_hangul ⟨h1, h2⟩]
  have hmm : (c - 0xAC00) % 588 % 28 = (c - 0xAC00) % 28 :=
    Nat.mod_mod_of_dvd _ (by norm_num)
  constructor
  · intro ht
    constructor
    · simp only [hangulDecompose]
      rw [if_pos ht]
    · unfold compose
      rw [if_neg (by omega), if_pos (by omega)]
      rw [Option.some_inj]
      omega
  · intro ht
    refine ⟨?_, ?_, ?_⟩
    · simp only [hangulDecompose]
      rw [if_neg ht]
    · unfold compose
      rw [if_neg (by omega), if_pos (by omega)]
      rw [Option.some_inj]
      omega
    · unfold compose
      rw [if_neg (by omega), if_neg (by omega), if_pos (by omega)]
      rw [Option.some_inj]
      omega

/-- Witness for C6 at the syllable U+AC01 (with trailing jamo): it decomposes
to [U+1100, U+1161, U+11A8] and composes back in two arithmetic steps. -/
theorem claim_C6_witness :
    decompose_canonical 0xAC01 = [0x1100, 0x1161, 0x11A8]
      ∧ compose 0x1100 0x1161 = some 0xAC00
      ∧ compose 0xAC00 0x11A8 = some 0xAC01 := by
  have h := (claim_C6_hangul_round_trip 0xAC01 (by norm_num) (by norm_num)).2
    (by norm_num)
  exact ⟨by simpa using h.1, by simpa using h.2.1, by simpa using h.2.2⟩

/-! ### Stream safety -/

/-- The scan invariant of the stream-safe process: starting from a given
count of pending non-starters, the running count of consecutive NonStarter
characters (Extend characters exempt, Starter characters resetting it) never
exceeds 30. -/
def ssOk (count : Nat) : List Nat → Bool
  | [] => true
  | c :: rest =>
      match stream_safe_class c with
      | .Starter => ssOk 0 rest
      | .Extend => ssOk count rest
      | .NonStarter => decide (count + 1 ≤ 30) && ssOk (count + 1) rest

/-- The number of NonStarter-class characters of a sequence. -/
def nonStarterCount (l : List Nat) : Nat :=
  (l.filter (fun c => decide (stream_safe_class c = SSClass.NonStarter))).length

theorem streamSafeAux_ok :
    ∀ (s : List Nat) (count : Nat), count ≤ 30 →
      ssOk count (streamSafeAux count s) = true := by
  intro s
  induction s with
  | nil => intro count _; rfl
  | cons c rest ih =>
      intro count hcount
      simp only [streamSafeAux]
      cases hc : stream_safe_class c with
      | Starter => simp only [ssOk, hc]; exact ih 0 (by omega)
      | Extend => simp only [ssOk, hc]; exact ih count hcount
      | NonStarter =>
          by_cases h30 : 30 < count + 1
          · rw [if_pos h30]
            have hcgj : stream_safe_class CGJ = .Starter := by decide
            simp only [ssOk, hcgj, hc]
            rw [decide_eq_true (by omega : 0 + 1 ≤ 30)]
            simp only [Bool.true_and]
            exact ih 1 (by omega)
          · rw [if_neg h30]
            simp only [ssOk, hc]
            rw [decide_eq_true (by omega : count + 1 ≤ 30)]
            simp only [Bool.true_and]
            exact ih (count + 1) (by omega)

theorem streamSafeAux_id :
    ∀ (s : List Nat) (count : Nat), ssOk count s = true →
      streamSafeAux count s = s := by
  intro s
  induction s with
  | nil => intro count _; rfl
  | cons c rest ih =>
      intro count hok
      simp only [streamSafeAux]
      cases hc : stream_safe_class c with
      | Starter =>
          simp only [ssOk, hc] at hok
          dsimp only
          rw [ih 0 hok]
      | Extend =>
          simp only [ssOk, hc] at hok
          dsimp only
          rw [ih count hok]
      | NonStarter =>
          simp only [ssOk, hc, Bool.and_eq_true, decide_eq_true_eq] at hok
          dsimp only
          rw [if_neg (by omega), ih (count + 1) hok.2]

theorem ssOk_run_bound :
    ∀ (mid post : List Nat) (count : Nat),
      ssOk count (mid ++ post) = true →
      (∀ c ∈ mid, stream_safe_class c ≠ SSClass.Starter) →
      count + nonStarterCount mid ≤ 30 ∨ nonStarterCount mid = 0 := by
  intro mid
  induction mid with
  | nil => intro post count _ _; right; rfl
  | cons c rest ih =>
      intro post count hok hns
      have hcr : ∀ x ∈ rest, stream_safe_class x ≠ SSClass.Starter :=
        fun x hx => hns x (List.mem_cons_of_mem c hx)
      cases hc : stream_safe_class c with
      | Starter => exact absurd hc (hns c (List.mem_cons_self c rest))
      | Extend =>
          simp only [List.cons_append, ssOk, hc] at hok
          have hcount : nonStarterCount (c :: rest) = nonStarterCount rest := by
            simp [nonStarterCount, List.filter, hc]
          rw [hcount]
          exact ih post count hok hcr
      | NonStarter =>
          simp only [List.cons_append, ssOk, hc, Bool.and_eq_true,
            decide_eq_true_eq] at hok
          have hcount : nonStarterCount (c :: rest) = nonStarterCount rest + 1 := by
            simp [nonStarterCount, List.filter, hc]
          rw [hcount]
          rcases ih post (count + 1) hok.2 hcr with h | h
          · left; omega
          · left; omega

theorem ssOk_drop :
    ∀ (pre l : List Nat) (count : Nat), ssOk count (pre ++ l) = true →
      ∃ count2, ssOk count2 l = true := by
  intro pre
  induction pre with
  | nil => intro l count h; exact ⟨count, h⟩
  | cons c rest ih =>
      intro l count h
      simp only [List.cons_append, ssOk] at h
      cases hc : stream_safe_class c with
      | Starter => rw [hc] at h; exact ih l 0 h
      | Extend => rw [hc] at h; exact ih l count h
      | NonStarter =>
          rw [hc] at h
          simp only [Bool.and_eq_true] at h
          exact ih l (count + 1) h.2

/-- C5: the stream-safe transform is idempotent; its output contains no run
of consecutive non-starter characters (stream-safe class NonStarter or
Extend) holding more than 30 NonStarter characters (Extend characters are
exempt from the count); and the bound is enforced by inserting the Combining
Grapheme Joiner U+034F before the character that would exceed the bound,
resetting the count to 1. -/
theorem claim_C5_stream_safe (s pre mid post : List Nat) :
    streamSafe (streamSafe s) = streamSafe s
    ∧ (streamSafe s = pre ++ mid ++ post →
        (∀ c ∈ mid, stream_safe_class c ≠ SSClass.Starter) →
        nonStarterCount mid ≤ 30)
    ∧ (∀ c rest, stream_safe_class c = SSClass.NonStarter →
        streamSafeAux 30 (c :: rest) = CGJ :: c :: streamSafeAux 1 rest) := by
  refine ⟨?_, ?_, ?_⟩
  · exact streamSafeAux_id _ 0 (streamSafeAux_ok s 0 (by omega))
  · intro heq hns
    have hok : ssOk 0 (pre ++ (mid ++ post)) = true := by
      rw [← List.append_assoc, ← heq]
      exact streamSafeAux_ok s 0 (by omega)
    obtain ⟨count2, hok2⟩ := ssOk_drop pre (mid ++ post) 0 hok
    rcases ssOk_run_bound mid post count2 hok2 hns with h | h <;> omega
  · intro c rest hc
    simp only [streamSafeAux, hc]
    rw [if_pos (by omega)]

/-- Witness for C5: a run of 31 acute accents gets a CGJ inserted after 30 of
them, the result is a fixed point, and the 30-mark prefix is within the
bound. -/
theorem claim_C5_witness :
    streamSafe (streamSafe (List.replicate 31 0x301))
        = streamSafe (List.replicate 31 0x301)
      ∧ nonStarterCount (List.replicate 30 0x301) ≤ 30
      ∧ streamSafeAux 30 [0x301] = CGJ :: 0x301 :: streamSafeAux 1 [] := by
  have h := claim_C5_stream_safe (List.replicate 31 0x301) []
    (List.replicate 30 0x301) [0x34F, 0x301]
  exact ⟨h.1, h.2.1 (by decide) (by decide), h.2.2 0x301 [] (by decide)⟩

/-! ### Literal vectors -/

/-- C9: the documented literal vectors: compose('A', U+030A) = Some(U+00C5);
nfc of the already-composed "ÅΩ" ([U+00C5, U+03A9]) is unchanged; the
combining class of U+0301 is 230; and the combining class of every base Latin
letter is 0. -/
theorem claim_C9_literal_vectors :
    compose 0x41 0x30A = some 0xC5
    ∧ nfc [0xC5, 0x3A9] = [0xC5, 0x3A9]
    ∧ canonical_combining_class 0x301 = 230
    ∧ ∀ c : Nat, ((0x41 ≤ c ∧ c ≤ 0x5A) ∨ (0x61 ≤ c ∧ c ≤ 0x7A)) →
        canonical_combining_class c = 0 := by
  refine ⟨by decide, by decide, by decide, ?_⟩
  have hb : ∀ c, c < 0x7B →
      (((0x41 ≤ c ∧ c ≤ 0x5A) ∨ (0x61 ≤ c ∧ c ≤ 0x7A)) →
        canonical_combining_class c = 0) := by decide
  intro c hc
  exact hb c (by omega) hc

/-- Witness for C9 at the base Latin letter 'a' (U+0061). -/
theorem claim_C9_witness : canonical_combining_class 0x61 = 0 :=
  claim_C9_literal_vectors.2.2.2 0x61 (by decide)

/-! ### The classification surface exported by src/lib.rs -/

/-- The classification functions re-exported from the quick_check module by
the façade (src/lib.rs lines 56-60). -/
def quickCheckExports : List String :=
  ["is_nfc", "is_nfc_quick", "is_nfc_stream_safe", "is_nfc_stream_safe_quick",
   "is_nfd", "is_nfd_quick", "is_nfd_stream_safe", "is_nfd_stream_safe_quick",
   "is_nfkc", "is_nfkc_quick", "is_nfkd", "is_nfkd_quick"]

/-- Counterexample to C8 as stated: the nfkc form has no stream-safe
counterparts among the exported classification functions. -/
theorem claim_C8_counterexample :
    ¬ (∀ form ∈ ["nfc", "nfd", "nfkc", "nfkd"],
        ("is_" ++ form ++ "_stream_safe") ∈ quickCheckExports
          ∧ ("is_" ++ form ++ "_stream_safe_quick") ∈ quickCheckExports) := by
  decide

/-- C8 (amended): the boolean convenience check and the tri-state quick
variant exist for all four forms, while the stream-safe counterparts exist
for the nfc and nfd forms only. -/
theorem claim_C8_classification_surface :
    (∀ form ∈ ["nfc", "nfd", "nfkc", "nfkd"],
        ("is_" ++ form) ∈ quickCheckExports
          ∧ ("is_" ++ form ++ "_quick") ∈ quickCheckExports)
    ∧ (∀ form ∈ ["nfc", "nfd"],
        ("is_" ++ form ++ "_stream_safe") ∈ quickCheckExports
          ∧ ("is_" ++ form ++ "_stream_safe_quick") ∈ quickCheckExports)
    ∧ ("is_nfkc_stream_safe" ∉ quickCheckExports
        ∧ "is_nfkc_stream_safe_quick" ∉ quickCheckExports
        ∧ "is_nfkd_stream_safe" ∉ quickCheckExports
        ∧ "is_nfkd_stream_safe_quick" ∉ quickCheckExports) := by
  decide

/-- Witness for C8 (amended): the boolean check, quick variant and both
stream-safe counterparts are exported for the nfc form. -/
theorem claim_C8_witness :
    ("is_nfc" ∈ quickCheckExports)
      ∧ ("is_nfc_stream_safe" ∈ quickCheckExports) :=
  ⟨(claim_C8_classification_surface.1 "nfc" (by decide)).1,
   (claim_C8_classification_surface.2.1 "nfc" (by decide)).1⟩

/-! ### The transformation surface of the facade -/

/-- A Rust &str of the facade, modelled as its sequence of scalar values
(the output of self.chars()). -/
structure Str where
  chars : List Nat

/-- The &str implementation of the transformation surface
(src/lib.rs lines 155-200), each method delegating to the corresponding
transformer constructor applied to self.chars(). -/
def Str.nfd (s : Str) : List Nat := UnicodeNormalization.nfd s.chars

def Str.nfkd (s : Str) : List Nat := UnicodeNormalization.nfkd s.chars

def Str.nfc (s : Str) : List Nat := UnicodeNormalization.nfc s.chars

def Str.nfkc (s : Str) : List Nat := UnicodeNormalization.nfkc s.chars

def Str.nfd_ext (s : Str) : List Nat := nfdExt s.chars

def Str.nfkd_ext (s : Str) : List Nat := nfkdExt s.chars

def Str.nfc_ext (s : Str) : List Nat := nfcExt s.chars

def Str.nfkc_ext (s : Str) : List Nat := nfkcExt s.chars

def Str.stream_safe (s : Str) : List Nat := streamSafe s.chars

/-- The generic character-iterator implementation of the transformation
surface (src/lib.rs lines 202-247), each method delegating to the same
constructor applied to the iterator itself. -/
def Iter.nfd (i : List Nat) : List Nat := UnicodeNormalization.nfd i

def Iter.nfkd (i : List Nat) : List Nat := UnicodeNormalization.nfkd i

def Iter.nfc (i : List Nat) : List Nat := UnicodeNormalization.nfc i

def Iter.nfkc (i : List Nat) : List Nat := UnicodeNormalization.nfkc i

def Iter.nfd_ext (i : List Nat) : List Nat := nfdExt i

def Iter.nfkd_ext (i : List Nat) : List Nat := nfkdExt i

def Iter.nfc_ext (i : List Nat) : List Nat := nfcExt i

def Iter.nfkc_ext (i : List Nat) : List Nat := nfkcExt i

def Iter.stream_safe (i : List Nat) : List Nat := streamSafe i

/-- C10: for every string, the &str implementation of each of the nine
transformation-surface operations produces the same output sequence as the
generic character-iterator implementation applied to the string's character
sequence. -/
theorem claim_C10_str_agrees_with_iter (s : Str) :
    Str.nfd s = Iter.nfd s.chars ∧ Str.nfkd s = Iter.nfkd s.chars
    ∧ Str.nfc s = Iter.nfc s.chars ∧ Str.nfkc s = Iter.nfkc s.chars
    ∧ Str.nfd_ext s = Iter.nfd_ext s.chars
    ∧ Str.nfkd_ext s = Iter.nfkd_ext s.chars
    ∧ Str.nfc_ext s = Iter.nfc_ext s.chars
    ∧ Str.nfkc_ext s = Iter.nfkc_ext s.chars
    ∧ Str.stream_safe s = Iter.stream_safe s.chars :=
  ⟨rfl, rfl, rfl, rfl, rfl, rfl, rfl, rfl, rfl⟩

end UnicodeNormalization
